import Mathlib

set_option maxRecDepth 10000

/-!
Verification development for the read-only database browsing layer
(datasette core). The application code itself is not part of the visible
sources (only its test suite is), so the core components — Identifier
Codec, Query Executor, Pagination Planner, Response Assembler — are
modelled from the specification, with the concrete behaviour pinned by
the test suite in `tests/test_app.py`.
-/

namespace Datasette

/-! ## Identifier Codec

Modelled from the spec: §4.1 Identifier Codec — `encode(name) -> token`
and `decode(token) -> name`, inverse of each other for the full input
alphabet (arbitrary printable text, including `/`, space and leading
digits).  The codec is modelled at the byte level: a name is its byte
sequence (each byte `< 256`), a token is the byte sequence of a
path-safe percent-encoded string.  Bytes that are safe in a path
segment (ASCII letters, digits, `-`, `.`, `_`) pass through unchanged;
every other byte `b` becomes `%` followed by two uppercase hex digits,
as witnessed by the test path `table%2Fwith%2Fslashes.csv`. -/

/-- Uppercase hexadecimal digit for a value `0 ≤ n < 16`, as a byte. -/
def hexDigit (n : Nat) : Nat :=
  if n < 10 then 48 + n else 55 + n

/-- Inverse of `hexDigit`: byte of a hex digit back to its value. -/
def hexVal (b : Nat) : Option Nat :=
  if 48 ≤ b ∧ b ≤ 57 then some (b - 48)
  else if 65 ≤ b ∧ b ≤ 70 then some (b - 55)
  else none

/-- A byte that may appear verbatim in a path segment token:
ASCII letters, digits, `-` (45), `.` (46) and `_` (95). -/
def isSafeByte (b : Nat) : Bool :=
  (48 ≤ b && b ≤ 57) || (65 ≤ b && b ≤ 90) || (97 ≤ b && b ≤ 122)
    || b == 45 || b == 46 || b == 95

/-- Percent-encode a byte sequence into a path-safe token. -/
def encodeBytes : List Nat → List Nat
  | [] => []
  | b :: rest =>
    if isSafeByte b then b :: encodeBytes rest
    else 37 :: hexDigit (b / 16) :: hexDigit (b % 16) :: encodeBytes rest

/-- Decode a percent-encoded token back to the original byte sequence;
fails on a dangling or malformed escape. -/
def decodeBytes : List Nat → Option (List Nat)
  | [] => some []
  | b :: rest =>
    if b = 37 then
      match rest with
      | h :: l :: rest2 => do
        let hv ← hexVal h
        let lv ← hexVal l
        let r ← decodeBytes rest2
        pure ((16 * hv + lv) :: r)
      | _ => none
    else (decodeBytes rest).map (b :: ·)

/-- Byte sequence of an ASCII string, the form in which identifiers
reach the codec. -/
def strBytes (s : String) : List Nat :=
  s.data.map Char.toNat

/-- Encode an identifier string into its path-safe token. -/
def encodeName (s : String) : String :=
  String.mk ((encodeBytes (strBytes s)).map Char.ofNat)

/-- Decode a path segment token back to the identifier string. -/
def decodeSegment (seg : String) : Option String :=
  (decodeBytes (strBytes seg)).map (fun bs => String.mk (bs.map Char.ofNat))

/-- A row is an ordered mapping column name → value (values modelled as
their string rendering). -/
abbrev Row : Type := List (String × String)

/-- Modelled from the spec: §3 Data Model — a Table has a name, ordered
column names, ordered primary-key column names (empty ⇒ implicit row
identifier), and an approximate row count; here it also carries its
row data for the lookup and listing models. -/
structure Table where
  name : String
  columns : List String
  pks : List String
  table_rows : Nat
  rows : List Row
deriving Repr, DecidableEq

/-- Look a table up by the encoded path segment naming it. -/
def tableByEncodedName (tables : List Table) (seg : String) : Option Table :=
  match decodeSegment seg with
  | none => none
  | some nm => tables.find? (fun t => t.name == nm)

/-! ## Error taxonomy and Query Executor

Modelled from the spec: §4.3 Query Executor and §7 Error Handling —
`execute_read_only` rejects any statement whose trimmed, case-folded
text does not begin with `select`, and delegates to the Connection
Manager's bounded execution, which interrupts the statement when its
execution does not complete within the time budget.  Wall-clock
execution is modelled abstractly: a statement carries its execution
duration in milliseconds. -/

inductive QueryError where
  | NotSelect
  | Interrupted
  | SQLError (msg : String)
  | MalformedRowKey
  | AmbiguousIdentifier (a b : String)
  | NotFound
deriving Repr, DecidableEq

/-- Client-facing message of each recoverable error, as pinned by the
test suite for `NotSelect` and `Interrupted`. -/
def errorMessage : QueryError → String
  | .NotSelect => "Statement must begin with SELECT"
  | .Interrupted => "interrupted"
  | .SQLError m => m
  | .MalformedRowKey => "Invalid row key"
  | .AmbiguousIdentifier a b => "Ambiguous identifier: " ++ a ++ ", " ++ b
  | .NotFound => "Not found"

/-- HTTP status of each recoverable error: client-error status for
`NotSelect`, `Interrupted`, `SQLError`, `MalformedRowKey`; not-found
status for `NotFound`. -/
def errorStatus : QueryError → Nat
  | .NotFound => 404
  | _ => 400

/-- Structured error payload: ok = false plus the error message. -/
structure ErrorPayload where
  ok : Bool
  error : String
deriving Repr, DecidableEq

def errorPayload (e : QueryError) : ErrorPayload :=
  { ok := false, error := errorMessage e }

/-- Strip leading and trailing whitespace from a character sequence. -/
def trimChars (l : List Char) : List Char :=
  ((l.dropWhile Char.isWhitespace).reverse.dropWhile Char.isWhitespace).reverse

/-- The read-only validation gate: trimmed, case-folded text must begin
with the literal `select`. -/
def isSelect (sql : String) : Bool :=
  "select".data.isPrefixOf ((trimChars sql.data).map Char.toLower)

/-- Abstract behaviour of a statement on the engine: how long it runs
and which rows it yields when allowed to complete. -/
structure StmtExec where
  duration_ms : Nat
  resultRows : List Row

/-- Bounded execution: the watchdog interrupts the statement when its
duration exceeds the time budget; otherwise the rows come back. -/
def run_bounded (st : StmtExec) (time_limit_ms : Nat) : Except QueryError (List Row) :=
  if time_limit_ms < st.duration_ms then .error .Interrupted
  else .ok st.resultRows

/-- `execute_read_only`: validate the statement, then run it under the
time budget. -/
def execute_read_only (sql : String) (st : StmtExec) (time_limit_ms : Nat) :
    Except QueryError (List Row) :=
  if isSelect sql then run_bounded st time_limit_ms
  else .error .NotSelect

/-- Effective time budget: the per-request override, when given,
replaces the instance default in either direction. -/
def effectiveLimit (dflt : Nat) (override : Option Nat) : Nat :=
  override.getD dflt

/-! ## Test fixture catalog

The table catalog created by `tests/test_app.py`'s `TABLES` script,
listed in name order as the database page reports it. -/

def tblStartsWithDigits : Table :=
  { name := "123_starts_with_digits", columns := ["content"], pks := [],
    table_rows := 0, rows := [] }

def tblWithSpace : Table :=
  { name := "Table With Space In Name", columns := ["pk", "content"], pks := ["pk"],
    table_rows := 0, rows := [] }

def tblCompound : Table :=
  { name := "compound_primary_key", columns := ["pk1", "pk2", "content"],
    pks := ["pk1", "pk2"], table_rows := 0, rows := [] }

def tblNoPk : Table :=
  { name := "no_primary_key", columns := ["content"], pks := [],
    table_rows := 201,
    rows := (List.range 201).map (fun i => [("content", toString (i + 1))]) }

def tblSimplePk : Table :=
  { name := "simple_primary_key", columns := ["pk", "content"], pks := ["pk"],
    table_rows := 2,
    rows := [[("pk", "1"), ("content", "hello")], [("pk", "2"), ("content", "world")]] }

def tblSlashes : Table :=
  { name := "table/with/slashes.csv", columns := ["pk", "content"], pks := ["pk"],
    table_rows := 1, rows := [[("pk", "3"), ("content", "hey")]] }

def testTables : List Table :=
  [tblStartsWithDigits, tblWithSpace, tblCompound, tblNoPk, tblSimplePk, tblSlashes]

/-- The `no_primary_key` fixture rows keyed by the engine's implicit
row identifier (rowid `i + 1` for the `i`-th inserted row), in the
ascending order `ORDER BY rowid` yields. -/
def keyedNoPk : List (Nat × Row) :=
  (List.range 201).map (fun i => (i + 1, [("content", toString (i + 1))]))

/-! ## Response Assembler: single-row lookup

Modelled from the spec: §4.5 Response Assembler — for a single-row
lookup, if the requested path does not already match the canonical
encoded key for that row, the Assembler signals a redirect to the
canonical path rather than returning data directly. -/

inductive RowResponse where
  | redirect (location : String) (status : Nat)
  | data (rows : List Row) (status : Nat)
deriving Repr, DecidableEq

def rowLookup (tablePath suppliedKey canonicalKey : String) (row : Row) : RowResponse :=
  if suppliedKey == canonicalKey then .data [row] 200
  else .redirect (tablePath ++ "/" ++ canonicalKey) 302

/-! ## Database page routes

Modelled from the spec: §6 External Interfaces — `GET /{database}` and
its JSON form.  As pinned by `test_database_page`, the plain
(extensionless) database path answers with a redirect (to the
hash-versioned canonical path, not modelled further) instead of
serving the listing, while the `.json` path serves the listing
directly: the database name plus, for every table, its name, column
list and approximate row count. -/

/-- The per-table entry of the database page payload. -/
structure TableMeta where
  columns : List String
  name : String
  table_rows : Nat
deriving Repr, DecidableEq

def tableMeta (t : Table) : TableMeta :=
  { columns := t.columns, name := t.name, table_rows := t.table_rows }

inductive PathFormat where
  | plain
  | json
  | jsono
deriving Repr, DecidableEq

inductive DbResponse where
  | redirect (status : Nat)
  | page (status : Nat) (database : String) (tables : List TableMeta)
deriving Repr, DecidableEq

def handleDatabase (fmt : PathFormat) (dbName : String) (tables : List Table) :
    DbResponse :=
  match fmt with
  | .plain => .redirect 302
  | _ => .page 200 dbName (tables.map tableMeta)

/-! ## Pagination Planner

Modelled from the spec: §4.4 Pagination Planner — for table/view
listings, build `SELECT * FROM t [WHERE key > token] ORDER BY key
LIMIT page_size + 1`; if `page_size + 1` rows come back, keep
`page_size` of them, derive the continuation token from the
ordering-key values of the last kept row and leave `truncated = false`;
otherwise this is the final page with no token.  A table is modelled as
its row sequence in ascending ordering-key order (the order `ORDER BY`
yields on the stored rows), each row paired with its ordering-key
value; the token-seeded `WHERE key > token` clause is the filter
`afterToken`. -/

/-- Ordering-key comparison between keyed rows. -/
abbrev keyLt {α : Type} (a b : Nat × α) : Prop := a.1 < b.1

/-- The `WHERE <ordering-key> > <decoded token>` clause: keep the rows
whose key exceeds the token's key (no clause when no token). -/
def afterToken {α : Type} (tok : Option Nat) (table : List (Nat × α)) : List (Nat × α) :=
  match tok with
  | none => table
  | some t => table.filter (fun kr => t < kr.1)

/-- One listing fetch over the remaining rows: `LIMIT page_size + 1`,
then either keep all (final page, no token) or keep `page_size` rows
and derive the token from the last kept row's key. -/
def fetchPage {α : Type} (P : Nat) (rem : List (Nat × α)) :
    List (Nat × α) × Option Nat :=
  if (rem.take (P + 1)).length = P + 1 then
    ((rem.take (P + 1)).take P, ((rem.take (P + 1)).take P).getLast?.map Prod.fst)
  else
    (rem.take (P + 1), none)

/-- A listing page as assembled for the client: rows, the (always
false) truncation flag, and the optional continuation token. -/
structure ListingPage (α : Type) where
  rows : List (Nat × α)
  truncated : Bool
  next : Option Nat
deriving Repr, DecidableEq

/-- The Response Assembler for a listing page: listings never set
`truncated`; overflow is signalled by the continuation token. -/
def assembleListing {α : Type} (page : List (Nat × α)) (next : Option Nat) :
    ListingPage α :=
  { rows := page, truncated := false, next := next }

/-- The client's walk: fetch a page, follow the continuation token
until a page comes back without one.  `fuel` bounds the recursion; all
theorems take it large enough. -/
def runListing {α : Type} (table : List (Nat × α)) (P : Nat) :
    Option Nat → Nat → List (ListingPage α)
  | _, 0 => []
  | tok, fuel + 1 =>
    let pr := fetchPage P (afterToken tok table)
    match pr.2 with
    | none => [assembleListing pr.1 none]
    | some t => assembleListing pr.1 (some t) :: runListing table P (some t) fuel

/-- Reference chunking of a row sequence into pages of `P` (final
partial page included; the empty sequence gives one empty page). -/
def chunkList {β : Type} (P : Nat) (l : List β) : List (List β) :=
  if l.length ≤ P ∨ P = 0 then [l]
  else l.take P :: chunkList P (l.drop P)
termination_by l.length
decreasing_by
  simp only [List.length_drop]
  omega

/-- Invariant tying the continuation token to the rows already
delivered: no token at the start, otherwise the token is the
ordering-key value of the last delivered row. -/
def tokOk {α : Type} (done : List (Nat × α)) (tok : Option Nat) : Prop :=
  match tok with
  | none => done = []
  | some t => done.getLast?.map Prod.fst = some t

/-! ## Ad hoc query truncation

Modelled from the spec: §4.4 — for ad hoc SQL, execute with
`LIMIT max_returned_rows + 1`; if `max_returned_rows + 1` rows return,
drop the extra and set `truncated = true`; otherwise `truncated =
false`.  No continuation token is ever produced on this path. -/

structure AdhocResult where
  rows : List Row
  truncated : Bool
  next : Option Nat
deriving Repr, DecidableEq

def execAdhoc (available : List Row) (maxRows : Nat) : AdhocResult :=
  if (available.take (maxRows + 1)).length = maxRows + 1 then
    { rows := (available.take (maxRows + 1)).take maxRows, truncated := true,
      next := none }
  else
    { rows := available.take (maxRows + 1), truncated := false, next := none }

/-! ## Listing SQL construction -/

/-- The ordering key: primary-key columns in declared order, or the
engine's implicit row identifier when there are none. -/
def orderingKey (pks : List String) : List String :=
  if pks.isEmpty then ["rowid"] else pks

def commaJoin : List String → String
  | [] => ""
  | [c] => c
  | c :: rest => c ++ ", " ++ commaJoin rest

/-- The statement the Pagination Planner derives for a listing. -/
def buildListingSql (table : String) (pks : List String) (pageSize : Nat)
    (token : Option String) : String :=
  "select * from " ++ table
    ++ (match token with
        | none => ""
        | some t => " where " ++ commaJoin (orderingKey pks) ++ " > " ++ t)
    ++ " order by " ++ commaJoin (orderingKey pks)
    ++ " limit " ++ toString (pageSize + 1)

/-- Named parameters echoed for a planner-derived listing query:
always empty. -/
def listingParams : List (String × String) := []

/-! ### Supporting lemmas for the identifier codec -/

theorem hexVal_hexDigit (n : Nat) (h : n < 16) : hexVal (hexDigit n) = some n := by
  unfold hexDigit hexVal
  by_cases h10 : n < 10
  · simp only [if_pos h10]
    rw [if_pos]
    · simp
    · omega
  · simp only [if_neg h10]
    rw [if_neg, if_pos]
    · simp
    · omega
    · omega

theorem isSafeByte_ne_37 (b : Nat) (h : isSafeByte b = true) : b ≠ 37 := by
  unfold isSafeByte at h
  intro hb
  subst hb
  simp at h

/-- Core round-trip lemma for the byte-level codec. -/
theorem decode_encode (s : List Nat) (h : ∀ b ∈ s, b < 256) :
    decodeBytes (encodeBytes s) = some s := by
  induction s with
  | nil => rfl
  | cons b rest ih =>
    have hb : b < 256 := h b (List.mem_cons_self _ _)
    have hrest : ∀ x ∈ rest, x < 256 := fun x hx => h x (List.mem_cons_of_mem _ hx)
    unfold encodeBytes
    by_cases hsafe : isSafeByte b = true
    · simp only [if_pos hsafe]
      have hne : b ≠ 37 := isSafeByte_ne_37 b hsafe
      unfold decodeBytes
      rw [if_neg hne, ih hrest]
      rfl
    · simp only [if_neg hsafe]
      unfold decodeBytes
      rw [if_pos rfl]
      simp only []
      rw [hexVal_hexDigit (b / 16) (by omega)]
      rw [hexVal_hexDigit (b % 16) (by omega)]
      rw [ih hrest]
      simp [Nat.div_add_mod]

/-! ### Supporting lemmas for the pagination model -/

theorem pairwise_le_getLast {α : Type} :
    ∀ (l : List (Nat × α)), l.Pairwise keyLt →
      ∀ la, l.getLast? = some la → ∀ x ∈ l, x.1 ≤ la.1 := by
  intro l
  induction l with
  | nil => intro _ la h; simp at h
  | cons a t ih =>
    intro hl la h x hx
    cases t with
    | nil =>
      rw [List.getLast?_singleton] at h
      cases h
      rcases List.mem_singleton.mp hx with rfl
      exact le_refl _
    | cons b t2 =>
      rw [List.getLast?_cons_cons] at h
      have hp := List.pairwise_cons.mp hl
      rcases List.mem_cons.mp hx with rfl | hx2
      · have hla : la ∈ b :: t2 := List.mem_of_mem_getLast? h
        exact le_of_lt (hp.1 la hla)
      · exact ih hp.2 la h x hx2

theorem afterToken_eq_rem {α : Type} (table done rem : List (Nat × α)) (tok : Option Nat)
    (hsort : table.Pairwise keyLt) (heq : table = done ++ rem) (htok : tokOk done tok) :
    afterToken tok table = rem := by
  cases tok with
  | none =>
    have hdone : done = [] := htok
    subst hdone
    simp [afterToken, heq]
  | some t =>
    have htok' : done.getLast?.map Prod.fst = some t := htok
    cases hla : done.getLast? with
    | none => rw [hla] at htok'; simp at htok'
    | some la =>
      rw [hla] at htok'
      simp only [Option.map_some', Option.some.injEq] at htok'
      subst heq
      have hps := List.pairwise_append.mp hsort
      show (done ++ rem).filter (fun kr => decide (t < kr.1)) = rem
      rw [List.filter_append]
      have h1 : done.filter (fun kr => decide (t < kr.1)) = [] := by
        rw [List.filter_eq_nil_iff]
        intro x hx
        have hle := pairwise_le_getLast done hps.1 la hla x hx
        simp only [decide_eq_true_eq]
        omega
      have h2 : rem.filter (fun kr => decide (t < kr.1)) = rem := by
        rw [List.filter_eq_self]
        intro y hy
        have hlam : la ∈ done := List.mem_of_mem_getLast? hla
        have := hps.2.2 la hlam y hy
        simp only [decide_eq_true_eq]
        omega
      rw [h1, h2]
      rfl

theorem fetchPage_final {α : Type} (P : Nat) (rem : List (Nat × α))
    (h : rem.length ≤ P) : fetchPage P rem = (rem, none) := by
  unfold fetchPage
  rw [List.take_of_length_le (by omega)]
  rw [if_neg (by omega)]

theorem fetchPage_more {α : Type} (P : Nat) (rem : List (Nat × α))
    (hP : 0 < P) (h : P < rem.length) :
    fetchPage P rem = (rem.take P, (rem.take P).getLast?.map Prod.fst)
    ∧ ∃ la, (rem.take P).getLast? = some la := by
  have h1 : (rem.take (P + 1)).length = P + 1 := by
    rw [List.length_take]
    omega
  have h2 : (rem.take (P + 1)).take P = rem.take P := by
    rw [List.take_take]
    congr 1
    omega
  constructor
  · unfold fetchPage
    rw [if_pos h1, h2]
  · have hlen : (rem.take P).length = P := by
      rw [List.length_take]
      omega
    have hne : rem.take P ≠ [] := by
      intro hc
      rw [hc] at hlen
      simp at hlen
      omega
    have := List.getLast?_isSome.mpr hne
    cases hlast : (rem.take P).getLast? with
    | none => rw [hlast] at this; simp at this
    | some la => exact ⟨la, rfl⟩

theorem runListing_master {α : Type} (table : List (Nat × α)) (P : Nat) (hP : 0 < P)
    (hsort : table.Pairwise keyLt) :
    ∀ (fuel : Nat) (done rem : List (Nat × α)) (tok : Option Nat),
      table = done ++ rem → rem.length < fuel → tokOk done tok →
      (runListing table P tok fuel).map ListingPage.rows = chunkList P rem
      ∧ runListing table P tok fuel ≠ []
      ∧ (∀ pg ∈ runListing table P tok fuel, pg.truncated = false)
      ∧ (∀ pg ∈ (runListing table P tok fuel).dropLast, pg.next.isSome = true)
      ∧ (runListing table P tok fuel).getLast?.map ListingPage.next = some none := by
  intro fuel
  induction fuel with
  | zero => intro done rem tok _ hf _; omega
  | succ fuel ih =>
    intro done rem tok heq hf htok
    have hAfter : afterToken tok table = rem :=
      afterToken_eq_rem table done rem tok hsort heq htok
    by_cases hsmall : rem.length ≤ P
    · have hrun : runListing table P tok (fuel + 1) = [assembleListing rem none] := by
        simp only [runListing, hAfter, fetchPage_final P rem hsmall]
      rw [hrun]
      refine ⟨?_, by simp, ?_, ?_, ?_⟩
      · rw [chunkList, if_pos (Or.inl hsmall)]
        simp [assembleListing]
      · intro pg hpg
        rcases List.mem_singleton.mp hpg with rfl
        rfl
      · intro pg hpg
        simp at hpg
      · simp [assembleListing]
    · push_neg at hsmall
      obtain ⟨hfp, la, hla⟩ := fetchPage_more P rem hP hsmall
      have hkeptlen : (rem.take P).length = P := by
        rw [List.length_take]
        omega
      have hkeptne : rem.take P ≠ [] := by
        intro hc
        rw [hc] at hkeptlen
        simp at hkeptlen
        omega
      have hrun : runListing table P tok (fuel + 1)
          = assembleListing (rem.take P) (some la.1)
              :: runListing table P (some la.1) fuel := by
        simp only [runListing, hAfter, hfp, hla, Option.map_some']
      have heq' : table = (done ++ rem.take P) ++ rem.drop P := by
        rw [heq, List.append_assoc, List.take_append_drop]
      have hf' : (rem.drop P).length < fuel := by
        rw [List.length_drop]
        omega
      have htok' : tokOk (done ++ rem.take P) (some la.1) := by
        show (done ++ rem.take P).getLast?.map Prod.fst = some la.1
        rw [List.getLast?_append_of_ne_nil _ hkeptne, hla]
        rfl
      obtain ⟨ih1, ih2, ih3, ih4, ih5⟩ :=
        ih (done ++ rem.take P) (rem.drop P) (some la.1) heq' hf' htok'
      rw [hrun]
      refine ⟨?_, by simp, ?_, ?_, ?_⟩
      · rw [chunkList, if_neg (by omega)]
        simp only [List.map_cons]
        rw [ih1]
        rfl
      · intro pg hpg
        rcases List.mem_cons.mp hpg with rfl | hpg2
        · rfl
        · exact ih3 pg hpg2
      · cases hrest : runListing table P (some la.1) fuel with
        | nil => exact absurd hrest ih2
        | cons y t =>
          intro pg hpg
          have hdl : (assembleListing (rem.take P) (some la.1) :: y :: t).dropLast
              = assembleListing (rem.take P) (some la.1) :: (y :: t).dropLast := rfl
          rw [hdl] at hpg
          rcases List.mem_cons.mp hpg with rfl | hpg2
          · rfl
          · rw [hrest] at ih4
            exact ih4 pg hpg2
      · cases hrest : runListing table P (some la.1) fuel with
        | nil => exact absurd hrest ih2
        | cons y t =>
          rw [List.getLast?_cons_cons]
          rw [hrest] at ih5
          exact ih5

theorem chunkList_ne_nil {β : Type} (P : Nat) (l : List β) : chunkList P l ≠ [] := by
  rw [chunkList]
  split
  · simp
  · simp

theorem chunkList_join {β : Type} (P : Nat) :
    ∀ (n : Nat) (l : List β), l.length ≤ n → (chunkList P l).flatten = l := by
  intro n
  induction n with
  | zero =>
    intro l hl
    have : l = [] := List.length_eq_zero.mp (by omega)
    subst this
    rw [chunkList, if_pos (Or.inl (by simp))]
    simp
  | succ n ihn =>
    intro l hl
    rw [chunkList]
    split
    · simp
    · rename_i hcond
      push_neg at hcond
      rw [List.flatten_cons]
      rw [ihn (l.drop P) (by rw [List.length_drop]; omega)]
      exact List.take_append_drop P l

theorem chunkList_length {β : Type} (P : Nat) (hP : 0 < P) :
    ∀ (n : Nat) (l : List β), l.length ≤ n →
      (chunkList P l).length = if l.length = 0 then 1 else (l.length + P - 1) / P := by
  intro n
  induction n with
  | zero =>
    intro l hl
    have : l = [] := List.length_eq_zero.mp (by omega)
    subst this
    rw [chunkList, if_pos (Or.inl (by simp))]
    simp
  | succ n ihn =>
    intro l hl
    rw [chunkList]
    split
    · rename_i hcond
      rcases hcond with hle | hzero
      · by_cases h0 : l.length = 0
        · simp [h0]
        · rw [if_neg h0]
          have : (l.length + P - 1) / P = 1 := by
            apply Nat.div_eq_of_lt_le
            · omega
            · omega
          rw [this]
          simp
      · omega
    · rename_i hcond
      push_neg at hcond
      simp only [List.length_cons]
      rw [ihn (l.drop P) (by rw [List.length_drop]; omega)]
      rw [List.length_drop]
      have hne : ¬ (l.length - P = 0) := by omega
      rw [if_neg hne, if_neg (by omega)]
      have h1 : l.length - P + P - 1 + P = l.length + P - 1 := by omega
      have h2 : l.length + P - 1 = (l.length - P + P - 1) + P := by omega
      rw [h2, Nat.add_div_right _ hP]

theorem chunkList_sizes {β : Type} (P : Nat) (hP : 0 < P) :
    ∀ (n : Nat) (l : List β), l.length ≤ n →
      (∀ c ∈ (chunkList P l).dropLast, c.length = P)
      ∧ (∀ lc, (chunkList P l).getLast? = some lc →
          lc.length = l.length - P * ((chunkList P l).length - 1)) := by
  intro n
  induction n with
  | zero =>
    intro l hl
    have : l = [] := List.length_eq_zero.mp (by omega)
    subst this
    rw [chunkList, if_pos (Or.inl (by simp))]
    constructor
    · intro c hc
      simp at hc
    · intro lc hlc
      rw [List.getLast?_singleton] at hlc
      cases hlc
      simp
  | succ n ihn =>
    intro l hl
    rw [chunkList]
    split
    · constructor
      · intro c hc
        simp at hc
      · intro lc hlc
        rw [List.getLast?_singleton] at hlc
        cases hlc
        simp
    · rename_i hcond
      push_neg at hcond
      obtain ⟨ihs, ihl⟩ := ihn (l.drop P) (by rw [List.length_drop]; omega)
      cases hrest : chunkList P (l.drop P) with
      | nil => exact absurd hrest (chunkList_ne_nil P _)
      | cons y t =>
        rw [hrest] at ihs ihl
        constructor
        · intro c hc
          have hdl : (l.take P :: y :: t).dropLast = l.take P :: (y :: t).dropLast := rfl
          rw [hdl] at hc
          rcases List.mem_cons.mp hc with rfl | hc2
          · rw [List.length_take]
            omega
          · exact ihs c hc2
        · intro lc hlc
          rw [List.getLast?_cons_cons] at hlc
          have hthis := ihl lc hlc
          rw [List.length_drop] at hthis
          simp only [List.length_cons, Nat.add_sub_cancel] at hthis ⊢
          rw [hthis, Nat.mul_succ, Nat.sub_sub]
          congr 1
          exact Nat.add_comm _ _

end Datasette

namespace Datasette

/-- C1: for every identifier byte string the system accepts, decoding
the encoded path token yields the original string, and the table named
`table/with/slashes.csv` is reachable via its encoded path segment
`table%2Fwith%2Fslashes.csv` and returns its rows. -/
theorem identifier_round_trip :
    (∀ s : List Nat, (∀ b ∈ s, b < 256) → decodeBytes (encodeBytes s) = some s)
    ∧ encodeName "table/with/slashes.csv" = "table%2Fwith%2Fslashes.csv"
    ∧ (tableByEncodedName testTables "table%2Fwith%2Fslashes.csv").map Table.rows
        = some [[("pk", "3"), ("content", "hey")]] :=
  ⟨decode_encode, by decide, by decide⟩

/-- C1 witness: the round trip at the concrete accepted identifier
`table/with/slashes.csv` (given as its byte sequence). -/
theorem identifier_round_trip_witness :
    decodeBytes (encodeBytes (strBytes "table/with/slashes.csv"))
      = some (strBytes "table/with/slashes.csv") :=
  identifier_round_trip.1 (strBytes "table/with/slashes.csv") (by decide)

/-- C2: every statement whose trimmed, case-folded text does not begin
with `select` is rejected by `execute_read_only` with `NotSelect`,
which carries a client-error status and the structured payload
`ok = false`, `error = "Statement must begin with SELECT"`, regardless
of the statement's duration or the time budget. -/
theorem not_select_rejected (sql : String) (st : StmtExec) (lim : Nat)
    (h : isSelect sql = false) :
    execute_read_only sql st lim = .error .NotSelect
    ∧ errorStatus .NotSelect = 400
    ∧ (errorPayload .NotSelect).ok = false
    ∧ (errorPayload .NotSelect).error = "Statement must begin with SELECT" := by
  refine ⟨?_, rfl, rfl, rfl⟩
  unfold execute_read_only
  rw [h]
  rfl

/-- C2 witness: `.schema` is rejected with `NotSelect` and the pinned
error payload. -/
theorem not_select_rejected_witness :
    execute_read_only ".schema" ⟨0, []⟩ 20 = .error .NotSelect
    ∧ errorStatus .NotSelect = 400
    ∧ (errorPayload .NotSelect).ok = false
    ∧ (errorPayload .NotSelect).error = "Statement must begin with SELECT" :=
  not_select_rejected ".schema" ⟨0, []⟩ 20 (by decide)

/-- C3: under the effective time budget (the per-request override when
present, else the default — the override may tighten as well as loosen),
a SELECT whose duration exceeds the budget fails with `Interrupted` at a
client-error status, while the identical statement within the budget
succeeds. -/
theorem time_budget (sql : String) (st : StmtExec) (dflt : Nat) (ovr : Option Nat)
    (hsel : isSelect sql = true) :
    (effectiveLimit dflt ovr < st.duration_ms →
      execute_read_only sql st (effectiveLimit dflt ovr) = .error .Interrupted
      ∧ errorStatus .Interrupted = 400)
    ∧ (st.duration_ms ≤ effectiveLimit dflt ovr →
      execute_read_only sql st (effectiveLimit dflt ovr) = .ok st.resultRows)
    ∧ (∀ o : Nat, effectiveLimit dflt (some o) = o) := by
  refine ⟨fun hlt => ⟨?_, rfl⟩, fun hle => ?_, fun o => rfl⟩
  · unfold execute_read_only run_bounded
    rw [hsel, if_pos rfl, if_pos hlt]
  · unfold execute_read_only run_bounded
    rw [hsel, if_pos rfl, if_neg (by omega)]

/-- C3 witness: with the 20ms default budget, a 500ms statement is
interrupted, a 10ms statement succeeds, and the same 10ms statement
under an explicit 5ms override is interrupted. -/
theorem keyedNoPk_sorted : keyedNoPk.Pairwise keyLt :=
  List.Pairwise.map _ (fun _ _ h => Nat.succ_lt_succ h) (List.pairwise_lt_range 201)

/-- C4: a table/view listing of `N` rows with page size `P` yields
`ceil(N/P)` pages for `N > 0` (one empty page for `N = 0`); every page
except the last holds exactly `P` rows and the last holds
`N - P*(pages-1)` rows. -/
theorem listing_page_sizes {α : Type} (table : List (Nat × α)) (P fuel : Nat)
    (hP : 0 < P) (hsort : table.Pairwise keyLt) (hfuel : table.length < fuel) :
    ((runListing table P none fuel).map ListingPage.rows).length
        = (if table.length = 0 then 1 else (table.length + P - 1) / P)
    ∧ (∀ pg ∈ ((runListing table P none fuel).map ListingPage.rows).dropLast,
        pg.length = P)
    ∧ (∀ lastpg,
        ((runListing table P none fuel).map ListingPage.rows).getLast? = some lastpg →
        lastpg.length = table.length
          - P * (((runListing table P none fuel).map ListingPage.rows).length - 1)) := by
  obtain ⟨h1, _, _, _, _⟩ :=
    runListing_master table P hP hsort fuel [] table none rfl hfuel rfl
  rw [h1]
  refine ⟨?_, ?_, ?_⟩
  · exact chunkList_length P hP table.length table (le_refl _)
  · exact (chunkList_sizes P hP table.length table (le_refl _)).1
  · exact (chunkList_sizes P hP table.length table (le_refl _)).2

/-- C4 witness: the 201-row `no_primary_key` listing under page size 50
paginates into 5 pages of sizes 50, 50, 50, 50, 1. -/
theorem listing_page_sizes_witness :
    ((runListing keyedNoPk 50 none 202).map ListingPage.rows).length
        = (if keyedNoPk.length = 0 then 1 else (keyedNoPk.length + 50 - 1) / 50)
    ∧ ((runListing keyedNoPk 50 none 202).map ListingPage.rows).map List.length
        = [50, 50, 50, 50, 1] :=
  ⟨(listing_page_sizes keyedNoPk 50 202 (by decide) keyedNoPk_sorted (by decide)).1,
   by decide⟩

/-- C5: an ad hoc SELECT with more available rows than
`max_returned_rows` returns exactly `max_returned_rows` rows with
`truncated = true`; when the result fits under the cap, all rows come
back with `truncated = false`. -/
theorem adhoc_truncation (available : List Row) (maxRows : Nat) :
    (maxRows < available.length →
      (execAdhoc available maxRows).rows = available.take maxRows
      ∧ (execAdhoc available maxRows).rows.length = maxRows
      ∧ (execAdhoc available maxRows).truncated = true)
    ∧ (available.length ≤ maxRows →
      (execAdhoc available maxRows).rows = available
      ∧ (execAdhoc available maxRows).truncated = false) := by
  constructor
  · intro h
    have hcond : (available.take (maxRows + 1)).length = maxRows + 1 := by
      rw [List.length_take]
      omega
    have hrows : execAdhoc available maxRows
        = { rows := (available.take (maxRows + 1)).take maxRows, truncated := true,
            next := none } := by
      unfold execAdhoc
      rw [if_pos hcond]
    rw [hrows]
    have htt : (available.take (maxRows + 1)).take maxRows = available.take maxRows := by
      rw [List.take_take]
      congr 1
      omega
    refine ⟨htt, ?_, rfl⟩
    rw [htt, List.length_take]
    omega
  · intro h
    have hcond : ¬ (available.take (maxRows + 1)).length = maxRows + 1 := by
      rw [List.take_of_length_le (by omega)]
      omega
    have hrows : execAdhoc available maxRows
        = { rows := available.take (maxRows + 1), truncated := false, next := none } := by
      unfold execAdhoc
      rw [if_neg hcond]
    rw [hrows, List.take_of_length_le (by omega)]
    exact ⟨rfl, rfl⟩

/-- C5 witness: 201 available rows under the cap 100 return exactly
100 rows with `truncated = true`; the 2-row result of
`select content from simple_primary_key` fits and is returned whole
with `truncated = false`. -/
theorem adhoc_truncation_witness :
    (execAdhoc tblNoPk.rows 100).rows.length = 100
    ∧ (execAdhoc tblNoPk.rows 100).truncated = true
    ∧ (execAdhoc [[("content", "hello")], [("content", "world")]] 100).rows
        = [[("content", "hello")], [("content", "world")]]
    ∧ (execAdhoc [[("content", "hello")], [("content", "world")]] 100).truncated = false :=
  ⟨((adhoc_truncation tblNoPk.rows 100).1 (by decide)).2.1,
   ((adhoc_truncation tblNoPk.rows 100).1 (by decide)).2.2,
   ((adhoc_truncation [[("content", "hello")], [("content", "world")]] 100).2 (by decide)).1,
   ((adhoc_truncation [[("content", "hello")], [("content", "world")]] 100).2 (by decide)).2⟩

/-- C6: in a table/view listing a continuation token is present on
every page except the last and absent on the last, a listing page
never sets `truncated`, and an ad hoc query never produces a
continuation token. -/
theorem continuation_token_policy {α : Type} (table : List (Nat × α)) (P fuel : Nat)
    (hP : 0 < P) (hsort : table.Pairwise keyLt) (hfuel : table.length < fuel) :
    (∀ pg ∈ (runListing table P none fuel).dropLast, pg.next.isSome = true)
    ∧ (runListing table P none fuel).getLast?.map ListingPage.next = some none
    ∧ (∀ pg ∈ runListing table P none fuel, pg.truncated = false)
    ∧ (∀ (available : List Row) (maxRows : Nat),
        (execAdhoc available maxRows).next = none) := by
  obtain ⟨_, _, h3, h4, h5⟩ :=
    runListing_master table P hP hsort fuel [] table none rfl hfuel rfl
  refine ⟨h4, h5, h3, ?_⟩
  intro available maxRows
  unfold execAdhoc
  split
  · rfl
  · rfl

/-- C6 witness: on the 5-page `no_primary_key` listing the token is
present on pages 1–4 and absent on page 5, no page is truncated, and
the capped ad hoc query over the same rows carries no token. -/
theorem continuation_token_policy_witness :
    (runListing keyedNoPk 50 none 202).getLast?.map ListingPage.next = some none
    ∧ (execAdhoc tblNoPk.rows 100).next = none
    ∧ ((runListing keyedNoPk 50 none 202).map ListingPage.next).map Option.isSome
        = [true, true, true, true, false] :=
  ⟨(continuation_token_policy keyedNoPk 50 202 (by decide) keyedNoPk_sorted
      (by decide)).2.1,
   (continuation_token_policy keyedNoPk 50 202 (by decide) keyedNoPk_sorted
      (by decide)).2.2.2 tblNoPk.rows 100,
   by decide⟩

/-- C7 counterexample: for the empty (`N = 0`) listing — the
`123_starts_with_digits` table — the walk performs one fetch, which is
not within `ceil(N/P) = 0` fetches as the claim states. -/
theorem next_url_walk_counterexample :
    ¬ ((runListing ([] : List (Nat × Row)) 50 none 51).length
        ≤ (List.length ([] : List (Nat × Row)) + 50 - 1) / 50)
    ∧ (runListing ([] : List (Nat × Row)) 50 none 51).length = 1 := by
  decide

/-- C7 (amended): starting from page 1 and following the continuation
tokens to exhaustion visits every row exactly once, in ascending
ordering-key order, and terminates within `max 1 (ceil(N/P))` fetches
(for `N ≥ 1` that is `ceil(N/P)`; the empty listing takes one fetch). -/
theorem next_url_walk {α : Type} (table : List (Nat × α)) (P fuel : Nat)
    (hP : 0 < P) (hsort : table.Pairwise keyLt) (hfuel : table.length < fuel) :
    ((runListing table P none fuel).map ListingPage.rows).flatten = table
    ∧ ((runListing table P none fuel).map ListingPage.rows).flatten.Pairwise keyLt
    ∧ (runListing table P none fuel).length = max 1 ((table.length + P - 1) / P) := by
  obtain ⟨h1, _, _, _, _⟩ :=
    runListing_master table P hP hsort fuel [] table none rfl hfuel rfl
  have hj : ((runListing table P none fuel).map ListingPage.rows).flatten = table := by
    rw [h1]
    exact chunkList_join P table.length table (le_refl _)
  refine ⟨hj, by rw [hj]; exact hsort, ?_⟩
  have hl := congrArg List.length h1
  rw [List.length_map] at hl
  rw [hl, chunkList_length P hP table.length table (le_refl _)]
  by_cases h0 : table.length = 0
  · rw [if_pos h0, h0]
    have : (0 + P - 1) / P = 0 := Nat.div_eq_of_lt (by omega)
    rw [this]
    simp
  · rw [if_neg h0]
    have h1le : 1 ≤ (table.length + P - 1) / P := by
      rw [Nat.le_div_iff_mul_le hP]
      omega
    omega

/-- C7 witness: the walk over the 201-row listing at page size 50
returns exactly the 201 rows in order and takes
`max 1 (ceil(201/50)) = 5` fetches. -/
theorem next_url_walk_witness :
    ((runListing keyedNoPk 50 none 202).map ListingPage.rows).flatten = keyedNoPk
    ∧ (runListing keyedNoPk 50 none 202).length
        = max 1 ((keyedNoPk.length + 50 - 1) / 50) :=
  ⟨(next_url_walk keyedNoPk 50 202 (by decide) keyedNoPk_sorted (by decide)).1,
   (next_url_walk keyedNoPk 50 202 (by decide) keyedNoPk_sorted (by decide)).2.2⟩

/-- C8: with no continuation token the Pagination Planner derives
`select * from <table> order by <ordering-key> limit page_size + 1`,
the ordering key being the primary-key columns in declared order;
concretely `simple_primary_key` at page size 50 yields
`select * from simple_primary_key order by pk limit 51` with empty
params. -/
theorem listing_sql_shape :
    buildListingSql "simple_primary_key" ["pk"] 50 none
        = "select * from simple_primary_key order by pk limit 51"
    ∧ listingParams = []
    ∧ (∀ (t : String) (pks : List String) (P : Nat),
        buildListingSql t pks P none
          = "select * from " ++ t ++ " order by " ++ commaJoin (orderingKey pks)
              ++ " limit " ++ toString (P + 1))
    ∧ (∀ (c : String) (cs : List String), orderingKey (c :: cs) = c :: cs) := by
  refine ⟨by decide, rfl, ?_, ?_⟩
  · intro t pks P
    unfold buildListingSql
    rw [String.append_empty]
  · intro c cs
    unfold orderingKey
    rw [if_neg (by simp)]

/-- C9: a single-row lookup whose supplied key differs from the
canonical encoded key responds with a 302 redirect to the canonical
path instead of data, and the canonical path returns the row with
status 200. -/
theorem row_canonical_redirect (tablePath suppliedKey canonicalKey : String) (row : Row)
    (h : suppliedKey ≠ canonicalKey) :
    rowLookup tablePath suppliedKey canonicalKey row
        = .redirect (tablePath ++ "/" ++ canonicalKey) 302
    ∧ rowLookup tablePath canonicalKey canonicalKey row = .data [row] 200 := by
  constructor
  · unfold rowLookup
    rw [if_neg (by simpa using h)]
  · unfold rowLookup
    rw [if_pos (by simp)]

/-- C9 witness: looking row `1` of `simple_primary_key` up by the
non-canonical key form `%31` redirects (302) to the canonical path
ending in `/1`, and the canonical key returns the row at 200. -/
theorem row_canonical_redirect_witness :
    rowLookup "/test_tables/simple_primary_key" "%31" "1"
        [("pk", "1"), ("content", "hello")]
      = .redirect "/test_tables/simple_primary_key/1" 302
    ∧ rowLookup "/test_tables/simple_primary_key" "1" "1"
        [("pk", "1"), ("content", "hello")]
      = .data [[("pk", "1"), ("content", "hello")]] 200 :=
  row_canonical_redirect "/test_tables/simple_primary_key" "%31" "1"
    [("pk", "1"), ("content", "hello")] (by decide)

/-- C10: the plain database path answers with a 302 redirect rather
than serving the table listing, while the `.json` path serves the
listing directly: the database name and, in name order, every table's
columns, name and approximate row count. -/
theorem database_page_routes :
    handleDatabase .plain "test_tables" testTables = .redirect 302
    ∧ handleDatabase .json "test_tables" testTables
        = .page 200 "test_tables"
            [{ columns := ["content"], name := "123_starts_with_digits", table_rows := 0 },
             { columns := ["pk", "content"], name := "Table With Space In Name",
               table_rows := 0 },
             { columns := ["pk1", "pk2", "content"], name := "compound_primary_key",
               table_rows := 0 },
             { columns := ["content"], name := "no_primary_key", table_rows := 201 },
             { columns := ["pk", "content"], name := "simple_primary_key", table_rows := 2 },
             { columns := ["pk", "content"], name := "table/with/slashes.csv",
               table_rows := 1 }] :=
  ⟨rfl, by decide⟩

theorem time_budget_witness :
    execute_read_only "select sleep(0.5)" ⟨500, []⟩ (effectiveLimit 20 none)
        = .error .Interrupted
    ∧ execute_read_only "select sleep(0.01)" ⟨10, []⟩ (effectiveLimit 20 none)
        = .ok []
    ∧ execute_read_only "select sleep(0.01)" ⟨10, []⟩ (effectiveLimit 20 (some 5))
        = .error .Interrupted :=
  ⟨((time_budget "select sleep(0.5)" ⟨500, []⟩ 20 none (by decide)).1 (by decide)).1,
   (time_budget "select sleep(0.01)" ⟨10, []⟩ 20 none (by decide)).2.1 (by decide),
   ((time_budget "select sleep(0.01)" ⟨10, []⟩ 20 (some 5) (by decide)).1 (by decide)).1⟩

end Datasette
